import Mathlib

/-
Verification of the route-planning core of `tsp_3d_plot.py`.

The program plans a visiting order over 3D points ("systems") under a
Euclidean distance metric and a quantized jump-count cost, using a greedy
nearest-neighbor construction followed by 2-opt local search.

Modelling conventions:
* Python floats are modelled as exact numbers: coordinates and distances of
  concrete `System` records live in `ℝ` (the distance involves a square
  root); the combinatorial pipeline (`total_cost`, `nearest_neighbor`,
  `two_opt`, `solve`) is stated over an abstract point type `P` together
  with a distance oracle `d : P → P → ℚ`, standing for the float-valued
  `distance_to` method.  Concrete instantiations use collinear points,
  whose Euclidean distances are exactly rational; bridge lemmas connect the
  oracle to `System.distance_to`.
* Python objects compare by reference (`System` defines no `__eq__`), so
  points are modelled as values of an abstract type with decidable
  equality; distinct atoms are distinct references.
* Python's unordered `set` is modelled as a first-occurrence-ordered
  duplicate-free list; `min(..., key=...)` keeps the first minimal element
  in iteration order, exactly as Python's `min` does.
* The `while improved` loop of `two_opt` is modelled with an explicit fuel
  argument; the fuel `permMeasure path + 1` is provably sufficient (each
  improving pass strictly decreases the number of strictly-better
  permutations), so the model reaches the same fixpoint as the source loop.
-/

namespace TSP

/-- A 3D point with an identifying label, from class `System` in the source.
Reference identity is modelled separately (abstract atoms); this record
carries the numeric payload used by `distance_to`. -/
structure System where
  name : String
  x : ℝ
  y : ℝ
  z : ℝ

/-- Euclidean distance, from `System.distance_to`
(`math.hypot(self.x - other.x, self.y - other.y, self.z - other.z)`). -/
noncomputable def System.distance_to (a b : System) : ℝ :=
  Real.sqrt ((a.x - b.x) ^ 2 + (a.y - b.y) ^ 2 + (a.z - b.z) ^ 2)

/-- Quantized hop count, from `System.jumps_to`:
`max(1, math.ceil(d / max_range)) if d > 1e-6 else 0`. -/
noncomputable def System.jumps_to (a b : System) (max_range : ℝ) : ℕ :=
  if 1 / 1000000 < a.distance_to b then
    (max 1 ⌈a.distance_to b / max_range⌉).toNat
  else 0

/-- The same hop-count formula over the rational distance oracle: the body of
`System.jumps_to` applied to an already-computed distance `q`. -/
def jumpQ (q rng : ℚ) : ℕ :=
  if 1 / 1000000 < q then (max 1 ⌈q / rng⌉).toNat else 0

variable {P : Type} [DecidableEq P]

/-- `System.jumps_to` seen through a distance oracle `d`. -/
def jumps_to (d : P → P → ℚ) (rng : ℚ) (a b : P) : ℕ :=
  jumpQ (d a b) rng

/-- Consecutive pairs of a route: `zip(path[:-1], path[1:])`. -/
def legPairs (path : List P) : List (P × P) :=
  path.zip path.tail

/-- Per-leg hop counts of a route. -/
def legJumps (d : P → P → ℚ) (rng : ℚ) (path : List P) : List ℕ :=
  (legPairs path).map fun ab => jumpQ (d ab.1 ab.2) rng

/-- Per-leg distances of a route. -/
def legDists (d : P → P → ℚ) (path : List P) : List ℚ :=
  (legPairs path).map fun ab => d ab.1 ab.2

/-- From `total_cost(path, rng, loop)`: returns
`(total jumps, per-leg jumps, total distance, per-leg distances)`; a route of
length < 2 yields zero totals and empty lists; when `loop` is true one more
leg from the last element back to the first is appended. -/
def total_cost (d : P → P → ℚ) (rng : ℚ) (loop : Bool) (path : List P) :
    ℕ × List ℕ × ℚ × List ℚ :=
  match path with
  | [] => (0, [], 0, [])
  | [_] => (0, [], 0, [])
  | p0 :: p1 :: rest =>
    let pr := p0 :: p1 :: rest
    let jumps := legJumps d rng pr
    let dists := legDists d pr
    if loop then
      let lastP := pr.getLast (List.cons_ne_nil _ _)
      (jumps.sum + jumpQ (d lastP p0) rng, jumps ++ [jumpQ (d lastP p0) rng],
       dists.sum + d lastP p0, dists ++ [d lastP p0])
    else
      (jumps.sum, jumps, dists.sum, dists)

/-- Python's `min(iterable, key=...)`: keeps the first element whose key is
minimal, replacing the current winner only on a strictly smaller key. -/
def selectMin (key : P → ℕ) : P → List P → P
  | best, [] => best
  | best, x :: xs => if key x < key best then selectMin key x xs else selectMin key best xs

/-- The greedy selection loop of `nearest_neighbor`: repeatedly pick the
unvisited point minimizing the hop count from the current point, remove it,
and advance.  The fuel equals the length of the unvisited list. -/
def nnLoop (d : P → P → ℚ) (rng : ℚ) : ℕ → P → List P → List P
  | 0, _, _ => []
  | _ + 1, _, [] => []
  | fuel + 1, cur, u :: us =>
    let nxt := selectMin (fun s => jumps_to d rng cur s) u us
    nxt :: nnLoop d rng fuel nxt ((u :: us).erase nxt)

/-- From `nearest_neighbor(systems, start, fixed_end, rng)`: greedy
construction from `start` over `set(systems) - {start}`, then a post-pass
forcing `fixed_end` (when provided) to be last. -/
def nearest_neighbor (d : P → P → ℚ) (rng : ℚ) (systems : List P) (start : P)
    (fixed_end : Option P) : List P :=
  let unvisited := systems.dedup.filter fun s => s ≠ start
  let path := start :: nnLoop d rng unvisited.length start unvisited
  match fixed_end with
  | none => path
  | some fe =>
    if path.getLast (List.cons_ne_nil _ _) ≠ fe then
      (if fe ∈ path then path.erase fe else path) ++ [fe]
    else path

/-- The mutable state of `two_opt`'s search: the current route `best`, its
cached cost `best_j`/`best_ly`, and the `improved` flag. -/
structure SState (P : Type) where
  best : List P
  bj : ℕ
  bly : ℚ
  improved : Bool
  deriving DecidableEq

/-- `best[:i] + best[i:k+1][::-1] + best[k+1:]`. -/
def reverseSegment (l : List P) (i k : ℕ) : List P :=
  l.take i ++ ((l.drop i).take (k + 1 - i)).reverse ++ l.drop (k + 1)

/-- One candidate 2-opt move at `(i, k)`: skipped when `loop and (i == 1 or
k == n-1)`; otherwise the reversal is accepted iff it strictly decreases the
total hop count, or ties it and strictly decreases the total distance. -/
def tryMove (d : P → P → ℚ) (rng : ℚ) (loop : Bool) (n i k : ℕ) (st : SState P) :
    SState P :=
  if loop = true ∧ (i = 1 ∨ k = n - 1) then st
  else
    let new := reverseSegment st.best i k
    let c := total_cost d rng loop new
    if c.1 < st.bj ∨ (c.1 = st.bj ∧ c.2.2.1 < st.bly) then ⟨new, c.1, c.2.2.1, true⟩
    else st

/-- The inner `for k in range(i+1, n)` loop.  Note that it runs to
completion even after an accepted move. -/
def innerK (d : P → P → ℚ) (rng : ℚ) (loop : Bool) (n i : ℕ) :
    List ℕ → SState P → SState P
  | [], st => st
  | k :: ks, st => innerK d rng loop n i ks (tryMove d rng loop n i k st)

/-- The outer `for i in range(1, n-2)` loop, with `if improved: break`
after each inner sweep. -/
def outerI (d : P → P → ℚ) (rng : ℚ) (loop : Bool) (n : ℕ) :
    List ℕ → SState P → SState P
  | [], st => st
  | i :: is, st =>
    let st1 := innerK d rng loop n i (List.range' (i + 1) (n - (i + 1))) st
    if st1.improved then st1 else outerI d rng loop n is st1

/-- One iteration of the `while improved` loop of `two_opt` (a full outer
pass).  `best_j`/`best_ly` are re-derived from `best`, which agrees with the
values the source carries across iterations since it always stores
`total_cost(best)` there. -/
def twoOptPass (d : P → P → ℚ) (rng : ℚ) (loop : Bool) (best : List P) : SState P :=
  let n := best.length
  let c := total_cost d rng loop best
  outerI d rng loop n (List.range' 1 (n - 3)) ⟨best, c.1, c.2.2.1, false⟩

/-- The `while improved` loop, with explicit fuel. -/
def twoOptLoop (d : P → P → ℚ) (rng : ℚ) (loop : Bool) : ℕ → List P → List P
  | 0, best => best
  | fuel + 1, best =>
    let st := twoOptPass d rng loop best
    if st.improved then twoOptLoop d rng loop fuel st.best else st.best

/-- The two-level lexicographic objective: strictly fewer hops, or equal
hops and strictly smaller distance. -/
abbrev lexBetter (c c2 : ℕ × ℚ) : Prop :=
  c.1 < c2.1 ∨ (c.1 = c2.1 ∧ c.2 < c2.2)

/-- The (hops, distance) cost pair of a route. -/
def costOf (d : P → P → ℚ) (rng : ℚ) (loop : Bool) (l : List P) : ℕ × ℚ :=
  ((total_cost d rng loop l).1, (total_cost d rng loop l).2.2.1)

/-- Number of permutations of `best` with a strictly better cost: the
termination measure of the `while improved` loop (each improving pass
strictly decreases it). -/
def permMeasure (d : P → P → ℚ) (rng : ℚ) (loop : Bool) (best : List P) : ℕ :=
  best.permutations.countP fun l =>
    decide (lexBetter (costOf d rng loop l) (costOf d rng loop best))

/-- From `two_opt(path, rng, loop)`: runs the improvement loop to its
fixpoint and returns `(best, per-leg jumps, total jumps, total distance,
per-leg distances)`. -/
def two_opt (d : P → P → ℚ) (rng : ℚ) (loop : Bool) (path : List P) :
    List P × List ℕ × ℕ × ℚ × List ℚ :=
  let best := twoOptLoop d rng loop (permMeasure d rng loop path + 1) path
  let c := total_cost d rng loop best
  (best, c.2.1, c.1, c.2.2.1, c.2.2.2)

/-- From `solve(systems, max_jump, loop_back, final_is_last)`: picks the
start (first point) and fixed end (last point, only when not looping and
`final_is_last`), runs greedy construction on the pool excluding the fixed
end, refines with 2-opt, and closes the loop if requested. -/
def solve (d : P → P → ℚ) (rng : ℚ) (loop_back final_is_last : Bool)
    (systems : List P) : List P × List ℕ × ℕ × ℚ × List ℚ :=
  match systems with
  | [] => ([], [], 0, 0, [])
  | [s] => ([s], [], 0, 0, [])
  | s0 :: s1 :: rest =>
    let sys := s0 :: s1 :: rest
    let fixed_end : Option P :=
      if !loop_back && final_is_last then some (sys.getLast (List.cons_ne_nil _ _))
      else none
    let pool := match fixed_end with
      | none => sys
      | some fe => sys.filter fun s => s ≠ fe
    let path := nearest_neighbor d rng pool s0 fixed_end
    let r := two_opt d rng loop_back path
    if loop_back = true ∧ r.1.head? ≠ r.1.getLast? then
      match r with
      | (best, jumps, tj, tly, dists) =>
        match best with
        | [] => (best, jumps, tj, tly, dists)
        | b0 :: bs =>
          let lastP := (b0 :: bs).getLast (List.cons_ne_nil _ _)
          ((b0 :: bs) ++ [b0], jumps ++ [jumpQ (d lastP b0) rng], tj, tly,
           dists ++ [d lastP b0])
    else r

/-- Local 2-optimality, as the spec states it: no reversal of the segment
between positions `i` and `k` with `1 ≤ i < n-2`, `i < k < n` (excluding
`i = 1` and `k = n-1` when `loop` is set) strictly decreases the hop count
or ties it while strictly decreasing the distance. -/
def noImprove (d : P → P → ℚ) (rng : ℚ) (loop : Bool) (best : List P) : Prop :=
  ∀ i k : ℕ, 1 ≤ i → i < best.length - 2 → i < k → k < best.length →
    (loop = true → ¬(i = 1 ∨ k = best.length - 1)) →
    ¬ lexBetter (costOf d rng loop (reverseSegment best i k)) (costOf d rng loop best)

/-- The refiner as the specification describes it (first-improvement with
restart): the inner sweep stops at the first accepted move, abandoning both
nested loops for the current pass.  This definition follows the spec's
words, to be compared against `two_opt` translated from the source. -/
def innerKSpec (d : P → P → ℚ) (rng : ℚ) (loop : Bool) (n i : ℕ) :
    List ℕ → SState P → SState P
  | [], st => st
  | k :: ks, st =>
    let st1 := tryMove d rng loop n i k st
    if st1.improved then st1 else innerKSpec d rng loop n i ks st1

/-- Outer loop of the spec's first-improvement refiner. -/
def outerISpec (d : P → P → ℚ) (rng : ℚ) (loop : Bool) (n : ℕ) :
    List ℕ → SState P → SState P
  | [], st => st
  | i :: is, st =>
    let st1 := innerKSpec d rng loop n i (List.range' (i + 1) (n - (i + 1))) st
    if st1.improved then st1 else outerISpec d rng loop n is st1

/-- One pass of the spec's first-improvement refiner. -/
def twoOptPassSpec (d : P → P → ℚ) (rng : ℚ) (loop : Bool) (best : List P) : SState P :=
  let n := best.length
  let c := total_cost d rng loop best
  outerISpec d rng loop n (List.range' 1 (n - 3)) ⟨best, c.1, c.2.2.1, false⟩

/-- Restart loop of the spec's first-improvement refiner. -/
def twoOptLoopSpec (d : P → P → ℚ) (rng : ℚ) (loop : Bool) : ℕ → List P → List P
  | 0, best => best
  | fuel + 1, best =>
    let st := twoOptPassSpec d rng loop best
    if st.improved then twoOptLoopSpec d rng loop fuel st.best else st.best

/-- The full refiner as the specification describes it: first-improvement
with restart, iterated until a clean pass. -/
def two_opt_described (d : P → P → ℚ) (rng : ℚ) (loop : Bool) (path : List P) :
    List P × List ℕ × ℕ × ℚ × List ℚ :=
  let best := twoOptLoopSpec d rng loop (permMeasure d rng loop path + 1) path
  let c := total_cost d rng loop best
  (best, c.2.1, c.1, c.2.2.1, c.2.2.2)

/-- Search-state invariant of `two_opt`'s pass, relative to the route
`best0` the pass started from: the cached cost is the cost of the current
route, the current route is a permutation of `best0` with the same head,
an `improved` flag certifies a strict lexicographic cost decrease, and an
unset flag means the state is untouched. -/
def StInv (d : P → P → ℚ) (rng : ℚ) (loop : Bool) (best0 : List P) (st : SState P) : Prop :=
  (st.bj, st.bly) = costOf d rng loop st.best ∧
  List.Perm st.best best0 ∧
  st.best.head? = best0.head? ∧
  (st.improved = true → lexBetter (st.bj, st.bly) (costOf d rng loop best0)) ∧
  (st.improved = false → st.best = best0)

/-- Points on the x-axis with rational abscissas: concrete `System` records
whose pairwise Euclidean distances are exactly rational. -/
def linePts {n : ℕ} (xs : Fin n → ℚ) : Fin n → System :=
  fun i => ⟨"", (xs i : ℝ), 0, 0⟩

/-- The rational distance oracle induced by collinear points. -/
def lineDist {n : ℕ} (xs : Fin n → ℚ) : Fin n → Fin n → ℚ :=
  fun i j => |xs i - xs j|

/-- Abscissas for the concrete example of the spec (claim C7):
A(0,0,0), B(10,0,0), C(20,0,0). -/
def xsC7 : Fin 3 → ℚ := fun i => [(0 : ℚ), 10, 20].getD i.val 0

/-- Abscissas exhibiting the fixed-end violation (claim C1):
A(0,0,0), B(10,0,0), C(20,0,0), D(5,0,0); D is the last input point. -/
def xsC1 : Fin 4 → ℚ := fun i => [(0 : ℚ), 10, 20, 5].getD i.val 0

/-- Abscissas separating the source's 2-opt sweep from the spec's
first-improvement-with-restart policy (claim C2). -/
def xsC2 : Fin 5 → ℚ := fun i => [(0 : ℚ), 7, -6, -12, 9].getD i.val 0

/-- Two points exactly 1e-6 apart (the epsilon boundary of `jumps_to`). -/
def xsEps : Fin 2 → ℚ := fun i => [(0 : ℚ), 1 / 1000000].getD i.val 0

end TSP

namespace TSP

variable {P : Type} [DecidableEq P]

/-- Collinear points: the Euclidean distance is the cast of the rational
absolute difference of the abscissas. -/
theorem linePts_distance {n : ℕ} (xs : Fin n → ℚ) (i j : Fin n) :
    (linePts xs i).distance_to (linePts xs j) = ((lineDist xs i j : ℚ) : ℝ) := by
  simp only [linePts, lineDist, System.distance_to]
  push_cast
  rw [show ((xs i : ℝ) - xs j) ^ 2 + ((0 : ℝ) - 0) ^ 2 + ((0 : ℝ) - 0) ^ 2
        = ((xs i : ℝ) - xs j) ^ 2 by ring]
  rw [Real.sqrt_sq_eq_abs]

/-- When the distance is (the cast of) a rational and the range is rational,
`System.jumps_to` agrees with the rational hop-count formula `jumpQ`. -/
theorem jumps_to_ofRat (a b : System) (q rng : ℚ) (h : a.distance_to b = (q : ℝ)) :
    a.jumps_to b ((rng : ℚ) : ℝ) = jumpQ q rng := by
  unfold System.jumps_to jumpQ
  rw [h]
  have heps : ((1 : ℝ) / 1000000 < (q : ℝ)) ↔ ((1 : ℚ) / 1000000 < q) := by
    rw [show (1 : ℝ) / 1000000 = ((1 / 1000000 : ℚ) : ℝ) by norm_num]
    exact Rat.cast_lt
  by_cases hq : (1 : ℚ) / 1000000 < q
  · rw [if_pos (heps.mpr hq), if_pos hq]
    congr 2
    rw [← Rat.cast_div, Rat.ceil_cast]
  · rw [if_neg (fun hc => hq (heps.mp hc)), if_neg hq]

/-- `System.jumps_to` on collinear points computes `jumpQ` of `lineDist`. -/
theorem linePts_jumps {n : ℕ} (xs : Fin n → ℚ) (i j : Fin n) (rng : ℚ) :
    (linePts xs i).jumps_to (linePts xs j) ((rng : ℚ) : ℝ) = jumpQ (lineDist xs i j) rng :=
  jumps_to_ofRat _ _ _ _ (linePts_distance xs i j)

end TSP

namespace TSP

variable {P : Type} [DecidableEq P]

/-- C5 (counterexample): at distance exactly 1e-6 — points (0,0,0) and
(1e-6,0,0), maxRange 1 — the distance is not below the epsilon, so the
claim's "otherwise" branch predicts `max 1 ⌈d / maxRange⌉ = 1`, but the code
(whose guard is `d > 1e-6`) returns 0. -/
theorem c5_epsilon_boundary :
    (linePts xsEps 0).jumps_to (linePts xsEps 1) 1 = 0 ∧
    ¬ (linePts xsEps 0).distance_to (linePts xsEps 1) < 1 / 1000000 ∧
    (max 1 ⌈(linePts xsEps 0).distance_to (linePts xsEps 1) / 1⌉).toNat = 1 := by
  have hd := linePts_distance xsEps 0 1
  have hq : lineDist xsEps 0 1 = 1 / 1000000 := by
    show |(0 : ℚ) - 1 / 1000000| = 1 / 1000000
    rw [zero_sub, abs_neg, abs_of_nonneg (by norm_num)]
  have hceil : ⌈(1 / 1000000 : ℚ)⌉ = 1 := by
    rw [Int.ceil_eq_iff]
    constructor <;> norm_num
  refine ⟨?_, ?_, ?_⟩
  · rw [show (1 : ℝ) = ((1 : ℚ) : ℝ) by norm_num, linePts_jumps, jumpQ, hq,
      if_neg (lt_irrefl _)]
  · rw [hd, hq]
    norm_num
  · rw [hd, hq, show (((1 / 1000000 : ℚ) : ℝ)) / 1 = ((1 / 1000000 : ℚ) : ℝ) by
      norm_num, Rat.ceil_cast, hceil]
    rfl

/-- C5 (amended): for maxRange > 0, `jumps_to` returns 0 when the distance
is at most 1e-6 (not merely below it), and otherwise returns
`ceil(distance / maxRange)` floored at a minimum of 1; in particular the
result is at least 1 whenever the distance exceeds 1e-6. -/
theorem c5_jumps_to_amended (a b : System) (rng : ℝ) (h : 0 < rng) :
    (a.distance_to b ≤ 1 / 1000000 → a.jumps_to b rng = 0) ∧
    (1 / 1000000 < a.distance_to b →
      a.jumps_to b rng = (max 1 ⌈a.distance_to b / rng⌉).toNat ∧
      1 ≤ a.jumps_to b rng) := by
  unfold System.jumps_to
  refine ⟨fun hle => ?_, fun hlt => ?_⟩
  · rw [if_neg (not_lt.mpr hle)]
  · rw [if_pos hlt]
    refine ⟨rfl, ?_⟩
    have h1 : (1 : ℤ) ≤ max 1 ⌈a.distance_to b / rng⌉ := le_max_left _ _
    omega

/-- Witness for `c5_jumps_to_amended` at A(0,0,0), B(10,0,0), maxRange 15. -/
theorem c5_jumps_to_amended_witness :
    (0 : ℝ) < 15 ∧
    (((linePts xsC7 0).distance_to (linePts xsC7 1) ≤ 1 / 1000000 →
        (linePts xsC7 0).jumps_to (linePts xsC7 1) 15 = 0) ∧
     (1 / 1000000 < (linePts xsC7 0).distance_to (linePts xsC7 1) →
        (linePts xsC7 0).jumps_to (linePts xsC7 1) 15 =
          (max 1 ⌈(linePts xsC7 0).distance_to (linePts xsC7 1) / 15⌉).toNat ∧
        1 ≤ (linePts xsC7 0).jumps_to (linePts xsC7 1) 15)) :=
  ⟨by norm_num, c5_jumps_to_amended (linePts xsC7 0) (linePts xsC7 1) 15 (by norm_num)⟩

/-- C7: the spec's concrete example A(0,0,0), B(10,0,0), C(20,0,0) with
maxRange 15: hop counts 1, 1, 2; greedy construction yields [A,B,C]; 2-opt
leaves the route unchanged (no improving reversal exists); totals are 2
jumps and distance 20. -/
theorem c7_concrete_example :
    (∀ i j, (linePts xsC7 i).distance_to (linePts xsC7 j) = ((lineDist xsC7 i j : ℚ) : ℝ)) ∧
    (linePts xsC7 0).jumps_to (linePts xsC7 1) 15 = 1 ∧
    (linePts xsC7 1).jumps_to (linePts xsC7 2) 15 = 1 ∧
    (linePts xsC7 0).jumps_to (linePts xsC7 2) 15 = 2 ∧
    nearest_neighbor (lineDist xsC7) 15 [0, 1, 2] 0 none = [0, 1, 2] ∧
    two_opt (lineDist xsC7) 15 false [0, 1, 2] = ([0, 1, 2], [1, 1], 2, 20, [10, 10]) ∧
    noImprove (lineDist xsC7) 15 false [0, 1, 2] := by
  have h15 : (15 : ℝ) = ((15 : ℚ) : ℝ) := by norm_num
  refine ⟨linePts_distance xsC7, ?_, ?_, ?_, ?_, ?_, ?_⟩
  · rw [h15, linePts_jumps]
    with_unfolding_all decide
  · rw [h15, linePts_jumps]
    with_unfolding_all decide
  · rw [h15, linePts_jumps]
    with_unfolding_all decide
  · with_unfolding_all decide
  · with_unfolding_all decide
  · intro i k h1 h2 h3 h4 h5
    exfalso
    simp only [List.length_cons, List.length_nil] at h2
    omega

/-- C1 (code bug): input A(0,0,0), B(10,0,0), C(20,0,0), D(5,0,0) with
maxRange 1, loopBack false, finalIsLast true.  The greedy constructor duly
places the fixed end D last, but `two_opt` (whose reversals may include the
final position when `loop` is false) moves it: `solve` returns a route
ending at B, not at the last input point D. -/
theorem c1_fixed_end_code_bug :
    (∀ i j, (linePts xsC1 i).distance_to (linePts xsC1 j) = ((lineDist xsC1 i j : ℚ) : ℝ)) ∧
    nearest_neighbor (lineDist xsC1) 1 [0, 1, 2] 0 (some 3) = [0, 1, 2, 3] ∧
    solve (lineDist xsC1) 1 false true [0, 1, 2, 3] =
      ([0, 3, 2, 1], [5, 15, 10], 30, 30, [5, 15, 10]) ∧
    ([0, 1, 2, 3] : List (Fin 4)).getLast? = some 3 ∧
    (solve (lineDist xsC1) 1 false true [0, 1, 2, 3]).1.getLast? = some 1 ∧
    (1 : Fin 4) ≠ 3 := by
  refine ⟨linePts_distance xsC1, ?_, ?_, by decide, ?_, by decide⟩
  · with_unfolding_all decide
  · with_unfolding_all decide
  · with_unfolding_all decide

/-- C8: `total_cost` on a route of length < 2 returns zero totals and empty
per-leg lists, for any range and either loop flag. -/
theorem c8_total_cost_degenerate (d : P → P → ℚ) (rng : ℚ) (loop : Bool)
    (path : List P) (h : path.length < 2) :
    total_cost d rng loop path = (0, [], 0, []) := by
  match path with
  | [] => rfl
  | [_] => rfl
  | p0 :: p1 :: rest =>
    exfalso
    simp only [List.length_cons] at h
    omega

/-- Witness for `c8_total_cost_degenerate` on a singleton route. -/
theorem c8_total_cost_degenerate_witness :
    ([(0 : Fin 2)].length < 2) ∧
    total_cost (fun _ _ => (0 : ℚ)) 1 true [(0 : Fin 2)] = (0, [], 0, []) :=
  ⟨by decide, c8_total_cost_degenerate _ _ _ _ (by decide)⟩

end TSP

namespace TSP

variable {P : Type} [DecidableEq P]

theorem lexBetter_irrefl (c : ℕ × ℚ) : ¬ lexBetter c c := by
  rintro (h | ⟨-, h⟩) <;> exact lt_irrefl _ h

theorem lexBetter_trans {a b c : ℕ × ℚ} (h1 : lexBetter a b) (h2 : lexBetter b c) :
    lexBetter a c := by
  rcases h1 with h1 | ⟨e1, h1⟩ <;> rcases h2 with h2 | ⟨e2, h2⟩
  · exact Or.inl (h1.trans h2)
  · exact Or.inl (e2 ▸ h1)
  · exact Or.inl (e1 ▸ h2)
  · exact Or.inr ⟨e1.trans e2, h1.trans h2⟩

/-- A segment reversal is a permutation of the route (for the index ranges
the search uses). -/
theorem reverseSegment_perm (l : List P) (i k : ℕ) (h : i ≤ k + 1) :
    List.Perm (reverseSegment l i k) l := by
  unfold reverseSegment
  rw [List.append_assoc]
  conv_rhs => rw [← List.take_append_drop i l]
  refine List.Perm.append_left _ ?_
  conv_rhs => rw [← List.take_append_drop (k + 1 - i) (l.drop i)]
  refine List.Perm.append (List.reverse_perm _) ?_
  rw [List.drop_drop, Nat.add_sub_cancel' h]

/-- A segment reversal starting at position `i ≥ 1` keeps the head. -/
theorem reverseSegment_head (l : List P) (i k : ℕ) (h : 1 ≤ i) :
    (reverseSegment l i k).head? = l.head? := by
  cases l with
  | nil => simp [reverseSegment]
  | cons a l =>
    rw [show i = (i - 1) + 1 by omega]
    simp [reverseSegment, List.take_succ_cons]

/-- `tryMove` preserves the pass invariant. -/
theorem tryMove_StInv (d : P → P → ℚ) (rng : ℚ) (loop : Bool) (best0 : List P)
    (n i k : ℕ) (hi : 1 ≤ i) (hik : i ≤ k + 1) (st : SState P)
    (h : StInv d rng loop best0 st) :
    StInv d rng loop best0 (tryMove d rng loop n i k st) := by
  obtain ⟨hc, hp, hh, himp, hbase⟩ := h
  simp only [tryMove]
  split
  · exact ⟨hc, hp, hh, himp, hbase⟩
  · split
    · rename_i hacc
      have hlt : lexBetter (costOf d rng loop (reverseSegment st.best i k))
          (st.bj, st.bly) := hacc
      refine ⟨rfl, (reverseSegment_perm st.best i k hik).trans hp, ?_, ?_, ?_⟩
      · rw [reverseSegment_head st.best i k hi]
        exact hh
      · intro _
        cases hI : st.improved with
        | false =>
          have hb := hbase hI
          rw [hb] at hc
          exact hc ▸ hlt
        | true => exact lexBetter_trans hlt (himp hI)
      · intro h5
        simp at h5
    · exact ⟨hc, hp, hh, himp, hbase⟩

end TSP

namespace TSP

variable {P : Type} [DecidableEq P]

theorem mem_range'_iff (s n m : ℕ) : m ∈ List.range' s n ↔ s ≤ m ∧ m < s + n := by
  induction n generalizing s with
  | zero => simp [List.range']
  | succ n ih =>
    simp only [List.range', List.mem_cons, ih]
    omega

/-- The state a pass starts from satisfies the pass invariant. -/
theorem StInv_init (d : P → P → ℚ) (rng : ℚ) (loop : Bool) (best : List P) :
    StInv d rng loop best
      ⟨best, (total_cost d rng loop best).1, (total_cost d rng loop best).2.2.1, false⟩ :=
  ⟨rfl, List.Perm.refl _, rfl, fun h => by simp at h, fun _ => rfl⟩

/-- Any property preserved by each `tryMove` is preserved by the inner sweep. -/
theorem innerK_pres (d : P → P → ℚ) (rng : ℚ) (loop : Bool) (n i : ℕ)
    (Q : SState P → Prop) (ks : List ℕ)
    (hQ : ∀ k ∈ ks, ∀ st, Q st → Q (tryMove d rng loop n i k st)) (st : SState P)
    (h : Q st) : Q (innerK d rng loop n i ks st) := by
  induction ks generalizing st with
  | nil => exact h
  | cons k ks ih =>
    exact ih (fun k2 hk2 st2 h2 => hQ k2 (List.mem_cons_of_mem _ hk2) st2 h2) _
      (hQ k (List.mem_cons_self _ _) st h)

/-- Any property preserved by each inner sweep is preserved by the outer loop. -/
theorem outerI_pres (d : P → P → ℚ) (rng : ℚ) (loop : Bool) (n : ℕ)
    (Q : SState P → Prop) (is : List ℕ)
    (hQ : ∀ i ∈ is, ∀ st, Q st →
      Q (innerK d rng loop n i (List.range' (i + 1) (n - (i + 1))) st))
    (st : SState P) (h : Q st) : Q (outerI d rng loop n is st) := by
  induction is generalizing st with
  | nil => exact h
  | cons i is ih =>
    simp only [outerI]
    split
    · exact hQ i (List.mem_cons_self _ _) st h
    · exact ih (fun i2 hi2 st2 h2 => hQ i2 (List.mem_cons_of_mem _ hi2) st2 h2) _
        (hQ i (List.mem_cons_self _ _) st h)

/-- The result of a full pass satisfies the pass invariant. -/
theorem twoOptPass_StInv (d : P → P → ℚ) (rng : ℚ) (loop : Bool) (best : List P) :
    StInv d rng loop best (twoOptPass d rng loop best) := by
  simp only [twoOptPass]
  refine outerI_pres d rng loop _ _ _ ?_ _ (StInv_init d rng loop best)
  intro i hi st h
  refine innerK_pres d rng loop _ _ _ _ ?_ _ h
  intro k hk st2 h2
  have hi1 : 1 ≤ i := ((mem_range'_iff _ _ _).1 hi).1
  have hk1 : i + 1 ≤ k := ((mem_range'_iff _ _ _).1 hk).1
  exact tryMove_StInv d rng loop best _ i k hi1 (by omega) st2 h2

theorem tryMove_improved_mono (d : P → P → ℚ) (rng : ℚ) (loop : Bool) (n i k : ℕ)
    (st : SState P) (h : st.improved = true) :
    (tryMove d rng loop n i k st).improved = true := by
  simp only [tryMove]
  split
  · exact h
  · split
    · rfl
    · exact h

theorem innerK_improved_mono (d : P → P → ℚ) (rng : ℚ) (loop : Bool) (n i : ℕ)
    (ks : List ℕ) (st : SState P) (h : st.improved = true) :
    (innerK d rng loop n i ks st).improved = true := by
  induction ks generalizing st with
  | nil => exact h
  | cons k ks ih => exact ih _ (tryMove_improved_mono d rng loop n i k st h)

/-- A `tryMove` that leaves the flag unset left the state alone, and (unless
the candidate was skipped) its reversal was not an improvement. -/
theorem tryMove_of_improved_false (d : P → P → ℚ) (rng : ℚ) (loop : Bool)
    (n i k : ℕ) (st : SState P)
    (h : (tryMove d rng loop n i k st).improved = false) :
    tryMove d rng loop n i k st = st ∧
    (¬(loop = true ∧ (i = 1 ∨ k = n - 1)) →
      ¬ lexBetter (costOf d rng loop (reverseSegment st.best i k)) (st.bj, st.bly)) := by
  simp only [tryMove] at h ⊢
  by_cases h1 : loop = true ∧ (i = 1 ∨ k = n - 1)
  · rw [if_pos h1]
    exact ⟨rfl, fun hn => absurd h1 hn⟩
  · rw [if_neg h1] at h ⊢
    by_cases h2 : (total_cost d rng loop (reverseSegment st.best i k)).1 < st.bj ∨
        ((total_cost d rng loop (reverseSegment st.best i k)).1 = st.bj ∧
         (total_cost d rng loop (reverseSegment st.best i k)).2.2.1 < st.bly)
    · rw [if_pos h2] at h
      simp at h
    · rw [if_neg h2]
      exact ⟨rfl, fun _ => h2⟩

/-- An inner sweep that leaves the flag unset left the state alone; every
non-skipped candidate it visited was not an improvement. -/
theorem innerK_of_improved_false (d : P → P → ℚ) (rng : ℚ) (loop : Bool)
    (n i : ℕ) (ks : List ℕ) (st : SState P)
    (h : (innerK d rng loop n i ks st).improved = false) :
    innerK d rng loop n i ks st = st ∧
    ∀ k ∈ ks, ¬(loop = true ∧ (i = 1 ∨ k = n - 1)) →
      ¬ lexBetter (costOf d rng loop (reverseSegment st.best i k)) (st.bj, st.bly) := by
  induction ks generalizing st with
  | nil => exact ⟨rfl, by simp⟩
  | cons k ks ih =>
    have hunfold : innerK d rng loop n i (k :: ks) st
        = innerK d rng loop n i ks (tryMove d rng loop n i k st) := rfl
    have hstep : (tryMove d rng loop n i k st).improved = false := by
      cases hI : (tryMove d rng loop n i k st).improved with
      | false => rfl
      | true =>
        exfalso
        have hmono := innerK_improved_mono d rng loop n i ks _ hI
        rw [hunfold, hmono] at h
        cases h
    obtain ⟨heq, hdec⟩ := tryMove_of_improved_false d rng loop n i k st hstep
    rw [hunfold, heq] at h
    obtain ⟨heq2, hdecs⟩ := ih _ h
    refine ⟨by rw [hunfold, heq, heq2], ?_⟩
    intro k2 hk2 hskip
    rcases List.mem_cons.1 hk2 with rfl | hk2
    · exact hdec hskip
    · exact hdecs k2 hk2 hskip

/-- An outer loop run that leaves the flag unset left the state alone; every
non-skipped candidate in its ranges was not an improvement. -/
theorem outerI_of_improved_false (d : P → P → ℚ) (rng : ℚ) (loop : Bool)
    (n : ℕ) (is : List ℕ) (st : SState P)
    (h : (outerI d rng loop n is st).improved = false) :
    outerI d rng loop n is st = st ∧
    ∀ i ∈ is, ∀ k ∈ List.range' (i + 1) (n - (i + 1)),
      ¬(loop = true ∧ (i = 1 ∨ k = n - 1)) →
      ¬ lexBetter (costOf d rng loop (reverseSegment st.best i k)) (st.bj, st.bly) := by
  induction is generalizing st with
  | nil => exact ⟨rfl, by simp⟩
  | cons i is ih =>
    simp only [outerI] at h ⊢
    cases hI : (innerK d rng loop n i (List.range' (i + 1) (n - (i + 1))) st).improved with
    | true =>
      rw [if_pos hI] at h
      rw [hI] at h
      cases h
    | false =>
      obtain ⟨heq, hdecs⟩ := innerK_of_improved_false d rng loop n i _ st hI
      rw [if_neg (by simp [hI])] at h ⊢
      rw [heq] at h ⊢
      obtain ⟨heq2, hdec2⟩ := ih _ h
      refine ⟨heq2, ?_⟩
      intro i2 hi2 k hk hskip
      rcases List.mem_cons.1 hi2 with rfl | hi2
      · exact hdecs k hk hskip
      · exact hdec2 i2 hi2 k hk hskip

end TSP

namespace TSP

variable {P : Type} [DecidableEq P]

theorem countP_lt_of_strict {β : Type} (l : List β) (p q : β → Bool)
    (hpq : ∀ x ∈ l, p x = true → q x = true) (x : β) (hx : x ∈ l)
    (hq : q x = true) (hp : p x = false) :
    l.countP p < l.countP q := by
  induction l with
  | nil => cases hx
  | cons a l ih =>
    rw [List.countP_cons, List.countP_cons]
    rcases List.mem_cons.1 hx with rfl | hx2
    · have hmono : l.countP p ≤ l.countP q :=
        List.countP_mono_left fun y hy => hpq y (List.mem_cons_of_mem _ hy)
      rw [hp, hq]
      simp only [Bool.false_eq_true, if_false, if_true]
      omega
    · have hstrict := ih (fun y hy => hpq y (List.mem_cons_of_mem _ hy)) hx2
      have hhead : (if p a then 1 else 0) ≤ (if q a then 1 else 0) := by
        by_cases hpa : p a = true
        · rw [hpa, hpq a (List.mem_cons_self _ _) hpa]
        · simp only [Bool.not_eq_true] at hpa
          rw [hpa]
          simp
      omega

/-- A strictly better permutation has a strictly smaller measure. -/
theorem permMeasure_lt (d : P → P → ℚ) (rng : ℚ) (loop : Bool) (l l2 : List P)
    (hp : List.Perm l2 l)
    (hlt : lexBetter (costOf d rng loop l2) (costOf d rng loop l)) :
    permMeasure d rng loop l2 < permMeasure d rng loop l := by
  unfold permMeasure
  rw [(hp.permutations).countP_eq]
  refine countP_lt_of_strict _ _ _ ?_ l2 ?_ ?_ ?_
  · intro x _ hx
    rw [decide_eq_true_eq] at hx ⊢
    exact lexBetter_trans hx hlt
  · exact List.mem_permutations.2 hp
  · rw [decide_eq_true_eq]
    exact hlt
  · exact decide_eq_false (lexBetter_irrefl _)

/-- A clean pass (flag unset) leaves the route alone and certifies local
2-optimality of the route it started from. -/
theorem twoOptPass_of_improved_false (d : P → P → ℚ) (rng : ℚ) (loop : Bool)
    (best : List P) (h : (twoOptPass d rng loop best).improved = false) :
    (twoOptPass d rng loop best).best = best ∧ noImprove d rng loop best := by
  have h2 : (outerI d rng loop best.length (List.range' 1 (best.length - 3))
      ⟨best, (total_cost d rng loop best).1, (total_cost d rng loop best).2.2.1,
        false⟩).improved = false := h
  obtain ⟨heq, hdec⟩ := outerI_of_improved_false d rng loop _ _ _ h2
  constructor
  · show (outerI d rng loop best.length (List.range' 1 (best.length - 3))
      ⟨best, (total_cost d rng loop best).1, (total_cost d rng loop best).2.2.1,
        false⟩).best = best
    rw [heq]
  · intro i k h1i h2i h3i h4i h5i
    have hmi : i ∈ List.range' 1 (best.length - 3) := (mem_range'_iff _ _ _).2 (by omega)
    have hmk : k ∈ List.range' (i + 1) (best.length - (i + 1)) :=
      (mem_range'_iff _ _ _).2 (by omega)
    exact hdec i hmi k hmk (fun hc => h5i hc.1 hc.2)

/-- An improving pass yields a permutation with strictly smaller cost. -/
theorem twoOptPass_improved_strict (d : P → P → ℚ) (rng : ℚ) (loop : Bool)
    (best : List P) (h : (twoOptPass d rng loop best).improved = true) :
    List.Perm (twoOptPass d rng loop best).best best ∧
    lexBetter (costOf d rng loop (twoOptPass d rng loop best).best)
      (costOf d rng loop best) := by
  obtain ⟨hc, hp, _, himp, _⟩ := twoOptPass_StInv d rng loop best
  exact ⟨hp, hc ▸ himp h⟩

/-- With fuel exceeding the measure, the loop reaches a 2-opt local optimum. -/
theorem twoOptLoop_noImprove (d : P → P → ℚ) (rng : ℚ) (loop : Bool) (fuel : ℕ) :
    ∀ best : List P, permMeasure d rng loop best < fuel →
      noImprove d rng loop (twoOptLoop d rng loop fuel best) := by
  induction fuel with
  | zero => intro best h; omega
  | succ fuel ih =>
    intro best h
    simp only [twoOptLoop]
    cases hI : (twoOptPass d rng loop best).improved with
    | false =>
      rw [if_neg (by simp [hI])]
      obtain ⟨heq, hni⟩ := twoOptPass_of_improved_false d rng loop best hI
      rw [heq]
      exact hni
    | true =>
      rw [if_pos rfl]
      apply ih
      obtain ⟨hp, hlt⟩ := twoOptPass_improved_strict d rng loop best hI
      have := permMeasure_lt d rng loop best _ hp hlt
      omega

/-- The loop returns a permutation of its input with the same head. -/
theorem twoOptLoop_perm_head (d : P → P → ℚ) (rng : ℚ) (loop : Bool) (fuel : ℕ) :
    ∀ best : List P, List.Perm (twoOptLoop d rng loop fuel best) best ∧
      (twoOptLoop d rng loop fuel best).head? = best.head? := by
  induction fuel with
  | zero => exact fun best => ⟨List.Perm.refl _, rfl⟩
  | succ fuel ih =>
    intro best
    simp only [twoOptLoop]
    obtain ⟨_, hp, hh, _, hbase⟩ := twoOptPass_StInv d rng loop best
    cases hI : (twoOptPass d rng loop best).improved with
    | false =>
      rw [if_neg (by simp [hI])]
      rw [hbase hI]
      exact ⟨List.Perm.refl _, rfl⟩
    | true =>
      rw [if_pos rfl]
      obtain ⟨hp2, hh2⟩ := ih (twoOptPass d rng loop best).best
      exact ⟨hp2.trans hp, hh2.trans hh⟩

end TSP

namespace TSP

variable {P : Type} [DecidableEq P]

/-- If no visited candidate improves, the inner sweep is the identity. -/
theorem innerK_id (d : P → P → ℚ) (rng : ℚ) (loop : Bool) (n i : ℕ) (ks : List ℕ)
    (st : SState P)
    (hdec : ∀ k ∈ ks, ¬(loop = true ∧ (i = 1 ∨ k = n - 1)) →
      ¬ lexBetter (costOf d rng loop (reverseSegment st.best i k)) (st.bj, st.bly)) :
    innerK d rng loop n i ks st = st := by
  induction ks with
  | nil => rfl
  | cons k ks ih =>
    have hstep : tryMove d rng loop n i k st = st := by
      simp only [tryMove]
      by_cases h1 : loop = true ∧ (i = 1 ∨ k = n - 1)
      · rw [if_pos h1]
      · rw [if_neg h1]
        have h2 : ¬ ((total_cost d rng loop (reverseSegment st.best i k)).1 < st.bj ∨
            ((total_cost d rng loop (reverseSegment st.best i k)).1 = st.bj ∧
             (total_cost d rng loop (reverseSegment st.best i k)).2.2.1 < st.bly)) :=
          hdec k (List.mem_cons_self _ _) h1
        rw [if_neg h2]
    have hunfold : innerK d rng loop n i (k :: ks) st
        = innerK d rng loop n i ks (tryMove d rng loop n i k st) := rfl
    rw [hunfold, hstep]
    exact ih fun k2 hk2 => hdec k2 (List.mem_cons_of_mem _ hk2)

/-- If no candidate in the ranges improves, the outer loop is the identity. -/
theorem outerI_id (d : P → P → ℚ) (rng : ℚ) (loop : Bool) (n : ℕ) (is : List ℕ)
    (st : SState P) (himp : st.improved = false)
    (hdec : ∀ i ∈ is, ∀ k ∈ List.range' (i + 1) (n - (i + 1)),
      ¬(loop = true ∧ (i = 1 ∨ k = n - 1)) →
      ¬ lexBetter (costOf d rng loop (reverseSegment st.best i k)) (st.bj, st.bly)) :
    outerI d rng loop n is st = st := by
  induction is with
  | nil => rfl
  | cons i is ih =>
    simp only [outerI]
    have hin : innerK d rng loop n i (List.range' (i + 1) (n - (i + 1))) st = st :=
      innerK_id d rng loop n i _ st (hdec i (List.mem_cons_self _ _))
    rw [hin, if_neg (by simp [himp])]
    exact ih fun i2 hi2 => hdec i2 (List.mem_cons_of_mem _ hi2)

/-- On a locally 2-optimal route the pass does nothing. -/
theorem twoOptPass_of_noImprove (d : P → P → ℚ) (rng : ℚ) (loop : Bool)
    (best : List P) (h : noImprove d rng loop best) :
    twoOptPass d rng loop best =
      ⟨best, (total_cost d rng loop best).1, (total_cost d rng loop best).2.2.1, false⟩ := by
  show outerI d rng loop best.length (List.range' 1 (best.length - 3))
      ⟨best, (total_cost d rng loop best).1, (total_cost d rng loop best).2.2.1,
        false⟩ = _
  apply outerI_id
  · rfl
  · intro i hi k hk hskip
    obtain ⟨h1i, h2i⟩ := (mem_range'_iff _ _ _).1 hi
    obtain ⟨h1k, h2k⟩ := (mem_range'_iff _ _ _).1 hk
    exact h i k h1i (by omega) (by omega) (by omega)
      (fun hl hor => hskip ⟨hl, hor⟩)

/-- On a locally 2-optimal route the loop does nothing (any fuel). -/
theorem twoOptLoop_of_noImprove (d : P → P → ℚ) (rng : ℚ) (loop : Bool)
    (fuel : ℕ) (best : List P) (h : noImprove d rng loop best) :
    twoOptLoop d rng loop fuel best = best := by
  cases fuel with
  | zero => rfl
  | succ fuel =>
    simp only [twoOptLoop]
    rw [twoOptPass_of_noImprove d rng loop best h]
    rfl

/-- The loop result does not depend on the fuel, once the fuel exceeds the
measure. -/
theorem twoOptLoop_congr (d : P → P → ℚ) (rng : ℚ) (loop : Bool) (fuel1 : ℕ) :
    ∀ (fuel2 : ℕ) (best : List P), permMeasure d rng loop best < fuel1 →
      permMeasure d rng loop best < fuel2 →
      twoOptLoop d rng loop fuel1 best = twoOptLoop d rng loop fuel2 best := by
  induction fuel1 with
  | zero => intro fuel2 best h1 h2; omega
  | succ fuel1 ih =>
    intro fuel2 best h1 h2
    cases fuel2 with
    | zero => omega
    | succ fuel2 =>
      simp only [twoOptLoop]
      cases hI : (twoOptPass d rng loop best).improved with
      | false => rw [if_neg (by simp [hI]), if_neg (by simp [hI])]
      | true =>
        rw [if_pos rfl, if_pos rfl]
        obtain ⟨hp, hlt⟩ := twoOptPass_improved_strict d rng loop best hI
        have hm := permMeasure_lt d rng loop best _ hp hlt
        exact ih fuel2 _ (by omega) (by omega)

/-- The route `two_opt` returns is a 2-opt local optimum. -/
theorem two_opt_route_noImprove (d : P → P → ℚ) (rng : ℚ) (loop : Bool)
    (path : List P) : noImprove d rng loop (two_opt d rng loop path).1 :=
  twoOptLoop_noImprove d rng loop _ path (by omega)

/-- The route `two_opt` returns is a permutation of its input. -/
theorem two_opt_route_perm (d : P → P → ℚ) (rng : ℚ) (loop : Bool)
    (path : List P) : List.Perm (two_opt d rng loop path).1 path :=
  (twoOptLoop_perm_head d rng loop _ path).1

/-- The route `two_opt` returns keeps the head of its input. -/
theorem two_opt_route_head (d : P → P → ℚ) (rng : ℚ) (loop : Bool)
    (path : List P) : (two_opt d rng loop path).1.head? = path.head? :=
  (twoOptLoop_perm_head d rng loop _ path).2

/-- The non-route components of `two_opt` are `total_cost` of its route. -/
theorem two_opt_components (d : P → P → ℚ) (rng : ℚ) (loop : Bool)
    (path : List P) :
    two_opt d rng loop path =
      ((two_opt d rng loop path).1,
       (total_cost d rng loop (two_opt d rng loop path).1).2.1,
       (total_cost d rng loop (two_opt d rng loop path).1).1,
       (total_cost d rng loop (two_opt d rng loop path).1).2.2.1,
       (total_cost d rng loop (two_opt d rng loop path).1).2.2.2) := rfl

end TSP

namespace TSP

variable {P : Type} [DecidableEq P]

/-- On a locally 2-optimal route, `two_opt` returns it unchanged together
with its `total_cost` breakdown. -/
theorem two_opt_of_noImprove (d : P → P → ℚ) (rng : ℚ) (loop : Bool)
    (X : List P) (h : noImprove d rng loop X) :
    two_opt d rng loop X =
      (X, (total_cost d rng loop X).2.1, (total_cost d rng loop X).1,
       (total_cost d rng loop X).2.2.1, (total_cost d rng loop X).2.2.2) := by
  have hfix := twoOptLoop_of_noImprove d rng loop (permMeasure d rng loop X + 1) X h
  simp only [two_opt]
  rw [hfix]

/-- C10: the route returned by `two_opt` is a permutation of the input route
(same multiset of references, hence same length) with the same first
element. -/
theorem c10_two_opt_route_permutation (d : P → P → ℚ) (rng : ℚ) (loop : Bool)
    (path : List P) :
    List.Perm (two_opt d rng loop path).1 path ∧
    (two_opt d rng loop path).1.length = path.length ∧
    (two_opt d rng loop path).1.head? = path.head? :=
  ⟨two_opt_route_perm d rng loop path,
   (two_opt_route_perm d rng loop path).length_eq,
   two_opt_route_head d rng loop path⟩

/-- C4: for maxRange > 0, the route returned by `two_opt` is locally
2-optimal: no reversal over `1 ≤ i < n-2`, `i < k < n` (minus the loop-mode
boundary exclusions) strictly decreases the hop count, nor ties it while
strictly decreasing the distance. -/
theorem c4_two_opt_locally_optimal (d : P → P → ℚ) (rng : ℚ) (loop : Bool)
    (path : List P) (h : 0 < rng) :
    noImprove d rng loop (two_opt d rng loop path).1 :=
  two_opt_route_noImprove d rng loop path

/-- Witness for `c4_two_opt_locally_optimal` at the spec's concrete example. -/
theorem c4_two_opt_locally_optimal_witness :
    (0 : ℚ) < 15 ∧
    noImprove (lineDist xsC7) 15 false (two_opt (lineDist xsC7) 15 false [0, 1, 2]).1 :=
  ⟨by norm_num, c4_two_opt_locally_optimal (lineDist xsC7) 15 false [0, 1, 2] (by norm_num)⟩

/-- C9: `two_opt` is idempotent — re-refining a refined route returns the
same route and the same cost breakdown, unchanged. -/
theorem c9_two_opt_idempotent (d : P → P → ℚ) (rng : ℚ) (loop : Bool)
    (path : List P) :
    two_opt d rng loop ((two_opt d rng loop path).1) = two_opt d rng loop path := by
  rw [two_opt_of_noImprove d rng loop _ (two_opt_route_noImprove d rng loop path)]
  exact (two_opt_components d rng loop path).symm

/-- C2 (amended): when a pass applies at least one improving reversal, the
outer loop is abandoned at the end of the current inner sweep (which runs to
completion and may apply several improving reversals), and the search
restarts from the improved route: `two_opt` of the input equals `two_opt` of
the pass result. -/
theorem c2_two_opt_restart_amended (d : P → P → ℚ) (rng : ℚ) (loop : Bool)
    (path : List P) (h : (twoOptPass d rng loop path).improved = true) :
    two_opt d rng loop path = two_opt d rng loop (twoOptPass d rng loop path).best := by
  obtain ⟨hp, hlt⟩ := twoOptPass_improved_strict d rng loop path h
  have hm := permMeasure_lt d rng loop path _ hp hlt
  have h1 : twoOptLoop d rng loop (permMeasure d rng loop path + 1) path
      = twoOptLoop d rng loop (permMeasure d rng loop path)
          (twoOptPass d rng loop path).best := by
    simp only [twoOptLoop]
    rw [if_pos h]
  have h2 : twoOptLoop d rng loop (permMeasure d rng loop path)
        (twoOptPass d rng loop path).best
      = twoOptLoop d rng loop
          (permMeasure d rng loop (twoOptPass d rng loop path).best + 1)
          (twoOptPass d rng loop path).best :=
    twoOptLoop_congr d rng loop _ _ _ hm (by omega)
  simp only [two_opt]
  rw [h1, h2]

/-- Witness for `c2_two_opt_restart_amended` on a route whose first pass
improves. -/
theorem c2_two_opt_restart_amended_witness :
    (twoOptPass (lineDist xsC1) 1 false [0, 1, 2, 3]).improved = true ∧
    two_opt (lineDist xsC1) 1 false [0, 1, 2, 3] =
      two_opt (lineDist xsC1) 1 false
        (twoOptPass (lineDist xsC1) 1 false [0, 1, 2, 3]).best :=
  ⟨by with_unfolding_all decide,
   c2_two_opt_restart_amended (lineDist xsC1) 1 false [0, 1, 2, 3]
     (by with_unfolding_all decide)⟩

/-- C2 (counterexample): the source's inner `for k` loop is NOT abandoned at
the first improving reversal — it keeps scanning and may apply further
reversals in the same sweep.  On the collinear input 0, 7, -6, -12, 9 with
maxRange 10, the source's `two_opt` and the spec's
first-improvement-with-restart refiner (`two_opt_described`) converge to
different routes with different total distances (30 vs 33); the spec
refiner's output is a genuine fixpoint of its own pass, so the divergence is
not a fuel artifact. -/
theorem c2_first_improvement_counterexample :
    (∀ i j, (linePts xsC2 i).distance_to (linePts xsC2 j) = ((lineDist xsC2 i j : ℚ) : ℝ)) ∧
    two_opt (lineDist xsC2) 10 false [0, 1, 2, 3, 4] =
      ([0, 4, 1, 2, 3], [1, 1, 2, 1], 5, 30, [9, 2, 13, 6]) ∧
    two_opt_described (lineDist xsC2) 10 false [0, 1, 2, 3, 4] =
      ([0, 2, 3, 1, 4], [1, 1, 2, 1], 5, 33, [6, 6, 19, 2]) ∧
    (twoOptPassSpec (lineDist xsC2) 10 false [0, 2, 3, 1, 4]).improved = false ∧
    two_opt (lineDist xsC2) 10 false [0, 1, 2, 3, 4] ≠
      two_opt_described (lineDist xsC2) 10 false [0, 1, 2, 3, 4] := by
  refine ⟨linePts_distance xsC2, ?_, ?_, ?_, ?_⟩ <;> with_unfolding_all decide

end TSP

namespace TSP

variable {P : Type} [DecidableEq P]

/-- Python's `min` returns an element of the collection. -/
theorem selectMin_mem (key : P → ℕ) (b : P) (xs : List P) :
    selectMin key b xs = b ∨ selectMin key b xs ∈ xs := by
  induction xs generalizing b with
  | nil => exact Or.inl rfl
  | cons x xs ih =>
    simp only [selectMin]
    split
    · rcases ih x with h | h
      · exact Or.inr (List.mem_cons.2 (Or.inl h))
      · exact Or.inr (List.mem_cons_of_mem _ h)
    · rcases ih b with h | h
      · exact Or.inl h
      · exact Or.inr (List.mem_cons_of_mem _ h)

/-- With fuel at least the list length, the greedy selection loop emits a
permutation of the unvisited list. -/
theorem nnLoop_perm (d : P → P → ℚ) (rng : ℚ) (fuel : ℕ) :
    ∀ (cur : P) (l : List P), l.length ≤ fuel →
      List.Perm (nnLoop d rng fuel cur l) l := by
  induction fuel with
  | zero =>
    intro cur l h
    have hl : l = [] := List.length_eq_zero.1 (by omega)
    rw [hl]
    exact List.Perm.refl _
  | succ fuel ih =>
    intro cur l h
    cases l with
    | nil => exact List.Perm.refl _
    | cons u us =>
      simp only [nnLoop]
      have hmem : selectMin (fun s => jumps_to d rng cur s) u us ∈ u :: us := by
        rcases selectMin_mem (fun s => jumps_to d rng cur s) u us with h2 | h2
        · rw [h2]
          exact List.mem_cons_self _ _
        · exact List.mem_cons_of_mem _ h2
      have hlen : ((u :: us).erase
          (selectMin (fun s => jumps_to d rng cur s) u us)).length ≤ fuel := by
        rw [List.length_erase_of_mem hmem]
        simp only [List.length_cons] at h ⊢
        omega
      exact ((ih _ _ hlen).cons _).trans (List.perm_cons_erase hmem).symm

theorem legPairs_cons_cons (a b : P) (t : List P) :
    legPairs (a :: b :: t) = (a, b) :: legPairs (b :: t) := rfl

/-- Appending a point to a nonempty route appends one leg from the old last
point to it. -/
theorem legPairs_concat (l : List P) (x : P) (h : l ≠ []) :
    legPairs (l ++ [x]) = legPairs l ++ [(l.getLast h, x)] := by
  induction l with
  | nil => exact absurd rfl h
  | cons a l ih =>
    cases l with
    | nil => rfl
    | cons b t =>
      have hbt : (b :: t : List P) ≠ [] := List.cons_ne_nil _ _
      show legPairs (a :: ((b :: t) ++ [x])) = _
      rw [show legPairs (a :: ((b :: t) ++ [x]))
            = (a, b) :: legPairs ((b :: t) ++ [x]) from rfl]
      rw [ih hbt]
      rfl

theorem legJumps_concat (d : P → P → ℚ) (rng : ℚ) (l : List P) (x : P) (h : l ≠ []) :
    legJumps d rng (l ++ [x]) = legJumps d rng l ++ [jumpQ (d (l.getLast h) x) rng] := by
  unfold legJumps
  rw [legPairs_concat l x h, List.map_append]
  rfl

theorem legDists_concat (d : P → P → ℚ) (l : List P) (x : P) (h : l ≠ []) :
    legDists d (l ++ [x]) = legDists d l ++ [d (l.getLast h) x] := by
  unfold legDists
  rw [legPairs_concat l x h, List.map_append]
  rfl

theorem legPairs_length (l : List P) : (legPairs l).length = l.length - 1 := by
  unfold legPairs
  rw [List.length_zip, List.length_tail]
  omega

theorem total_cost_true_eq (d : P → P → ℚ) (rng : ℚ) (p0 p1 : P) (rest : List P) :
    total_cost d rng true (p0 :: p1 :: rest) =
      ((legJumps d rng (p0 :: p1 :: rest)).sum +
         jumpQ (d ((p0 :: p1 :: rest).getLast (List.cons_ne_nil _ _)) p0) rng,
       legJumps d rng (p0 :: p1 :: rest) ++
         [jumpQ (d ((p0 :: p1 :: rest).getLast (List.cons_ne_nil _ _)) p0) rng],
       (legDists d (p0 :: p1 :: rest)).sum +
         d ((p0 :: p1 :: rest).getLast (List.cons_ne_nil _ _)) p0,
       legDists d (p0 :: p1 :: rest) ++
         [d ((p0 :: p1 :: rest).getLast (List.cons_ne_nil _ _)) p0]) := rfl

theorem total_cost_false_eq (d : P → P → ℚ) (rng : ℚ) (p0 p1 : P) (rest : List P) :
    total_cost d rng false (p0 :: p1 :: rest) =
      ((legJumps d rng (p0 :: p1 :: rest)).sum, legJumps d rng (p0 :: p1 :: rest),
       (legDists d (p0 :: p1 :: rest)).sum, legDists d (p0 :: p1 :: rest)) := rfl

end TSP

namespace TSP

variable {P : Type} [DecidableEq P]

theorem exists_cons_of_head_eq {α : Type} {l : List α} {a : α} (h : l.head? = some a) :
    ∃ t, l = a :: t := by
  cases l with
  | nil => cases h
  | cons b t =>
    simp only [List.head?_cons, Option.some.injEq] at h
    exact ⟨t, by rw [h]⟩

/-- In loop mode on a duplicate-free input of at least two points, `solve`
returns the refined route `s0 :: bs` closed with a second reference to the
start, re-appending the closing leg's hop count and distance to the per-leg
lists while leaving the totals as computed by `total_cost` in loop mode. -/
theorem solve_loop_shape (d : P → P → ℚ) (rng : ℚ) (fil : Bool) (s0 s1 : P)
    (rest : List P) (hnd : (s0 :: s1 :: rest).Nodup) :
    ∃ (bs : List P) (_ : bs ≠ []),
      (s0 :: bs).Nodup ∧
      (two_opt d rng true (nearest_neighbor d rng (s0 :: s1 :: rest) s0 none)).1 = s0 :: bs ∧
      solve d rng true fil (s0 :: s1 :: rest) =
        ((s0 :: bs) ++ [s0],
         (total_cost d rng true (s0 :: bs)).2.1 ++
           [jumpQ (d ((s0 :: bs).getLast (List.cons_ne_nil _ _)) s0) rng],
         (total_cost d rng true (s0 :: bs)).1,
         (total_cost d rng true (s0 :: bs)).2.2.1,
         (total_cost d rng true (s0 :: bs)).2.2.2 ++
           [d ((s0 :: bs).getLast (List.cons_ne_nil _ _)) s0]) := by
  have htail : List.Perm
      (nnLoop d rng ((s0 :: s1 :: rest).dedup.filter fun s => s ≠ s0).length s0
        ((s0 :: s1 :: rest).dedup.filter fun s => s ≠ s0))
      ((s0 :: s1 :: rest).dedup.filter fun s => s ≠ s0) :=
    nnLoop_perm d rng _ _ _ le_rfl
  have hs10 : s1 ≠ s0 := by
    intro he
    rw [List.nodup_cons] at hnd
    exact hnd.1 (he ▸ List.mem_cons_self _ _)
  have hs1unv : s1 ∈ (s0 :: s1 :: rest).dedup.filter fun s => s ≠ s0 := by
    rw [List.mem_filter]
    refine ⟨List.mem_dedup.2 (List.mem_cons_of_mem _ (List.mem_cons_self _ _)), ?_⟩
    simpa using hs10
  have hs0unv : s0 ∉ (s0 :: s1 :: rest).dedup.filter fun s => s ≠ s0 := by
    intro hmem
    rw [List.mem_filter] at hmem
    simp at hmem
  have hunvnd : ((s0 :: s1 :: rest).dedup.filter fun s => s ≠ s0).Nodup :=
    (List.nodup_dedup _).filter _
  have hpath : nearest_neighbor d rng (s0 :: s1 :: rest) s0 none
      = s0 :: nnLoop d rng ((s0 :: s1 :: rest).dedup.filter fun s => s ≠ s0).length s0
          ((s0 :: s1 :: rest).dedup.filter fun s => s ≠ s0) := rfl
  have hpnd : (nearest_neighbor d rng (s0 :: s1 :: rest) s0 none).Nodup := by
    rw [hpath, List.nodup_cons]
    exact ⟨fun hc => hs0unv (htail.mem_iff.1 hc), htail.nodup_iff.2 hunvnd⟩
  have hplen : 2 ≤ (nearest_neighbor d rng (s0 :: s1 :: rest) s0 none).length := by
    rw [hpath]
    simp only [List.length_cons]
    have h1 : 0 < ((s0 :: s1 :: rest).dedup.filter fun s => s ≠ s0).length :=
      List.length_pos.2 (List.ne_nil_of_mem hs1unv)
    have h2 := htail.length_eq
    omega
  have hBperm := two_opt_route_perm d rng true (nearest_neighbor d rng (s0 :: s1 :: rest) s0 none)
  have hBnd : (two_opt d rng true (nearest_neighbor d rng (s0 :: s1 :: rest) s0 none)).1.Nodup :=
    hBperm.nodup_iff.2 hpnd
  have hBhead : (two_opt d rng true (nearest_neighbor d rng (s0 :: s1 :: rest) s0 none)).1.head?
      = some s0 := by
    rw [two_opt_route_head d rng true _, hpath]
    rfl
  have hBlen : 2 ≤ (two_opt d rng true (nearest_neighbor d rng (s0 :: s1 :: rest) s0 none)).1.length := by
    rw [hBperm.length_eq]
    exact hplen
  obtain ⟨bs, hBeq⟩ := exists_cons_of_head_eq hBhead
  have hbsne : bs ≠ [] := by
    intro he
    rw [hBeq, he] at hBlen
    simp at hBlen
  have hs0bs : s0 ∉ bs := by
    rw [hBeq, List.nodup_cons] at hBnd
    exact hBnd.1
  have hlastmem : (s0 :: bs).getLast (List.cons_ne_nil _ _) ∈ bs := by
    rw [List.getLast_cons hbsne]
    exact List.getLast_mem hbsne
  have hlastne : s0 ≠ (s0 :: bs).getLast (List.cons_ne_nil _ _) := by
    intro he
    exact hs0bs (he ▸ hlastmem)
  have hgetLast : (s0 :: bs).getLast? = some ((s0 :: bs).getLast (List.cons_ne_nil _ _)) :=
    List.getLast?_eq_getLast _ _
  refine ⟨bs, hbsne, by rw [← hBeq]; exact hBnd, hBeq, ?_⟩
  have hr : two_opt d rng true (nearest_neighbor d rng (s0 :: s1 :: rest) s0 none)
      = (s0 :: bs, (total_cost d rng true (s0 :: bs)).2.1,
         (total_cost d rng true (s0 :: bs)).1, (total_cost d rng true (s0 :: bs)).2.2.1,
         (total_cost d rng true (s0 :: bs)).2.2.2) := by
    rw [two_opt_components d rng true _, hBeq]
  have hcond : (true = true ∧
      (two_opt d rng true (nearest_neighbor d rng (s0 :: s1 :: rest) s0 none)).1.head?
        ≠ (two_opt d rng true (nearest_neighbor d rng (s0 :: s1 :: rest) s0 none)).1.getLast?) := by
    refine ⟨rfl, ?_⟩
    rw [hBhead, hBeq, hgetLast]
    intro he
    rw [Option.some.injEq] at he
    exact hlastne he
  show solve d rng true fil (s0 :: s1 :: rest) = _
  simp only [solve, Bool.not_true, Bool.false_and, Bool.false_eq_true, if_false]
  rw [if_pos (And.intro trivial hcond.2), hr]

end TSP

namespace TSP

variable {P : Type} [DecidableEq P]

theorem legJumps_length (d : P → P → ℚ) (rng : ℚ) (l : List P) :
    (legJumps d rng l).length = l.length - 1 := by
  unfold legJumps
  rw [List.length_map, legPairs_length]

theorem legDists_length (d : P → P → ℚ) (l : List P) :
    (legDists d l).length = l.length - 1 := by
  unfold legDists
  rw [List.length_map, legPairs_length]

/-- `total_cost` without loop closure on a closed route `route ++ [x]`. -/
theorem total_cost_false_concat (d : P → P → ℚ) (rng : ℚ) (p0 p1 : P)
    (t : List P) (x : P) :
    total_cost d rng false ((p0 :: p1 :: t) ++ [x]) =
      ((legJumps d rng (p0 :: p1 :: t)).sum +
         jumpQ (d ((p0 :: p1 :: t).getLast (List.cons_ne_nil _ _)) x) rng,
       legJumps d rng (p0 :: p1 :: t) ++
         [jumpQ (d ((p0 :: p1 :: t).getLast (List.cons_ne_nil _ _)) x) rng],
       (legDists d (p0 :: p1 :: t)).sum +
         d ((p0 :: p1 :: t).getLast (List.cons_ne_nil _ _)) x,
       legDists d (p0 :: p1 :: t) ++
         [d ((p0 :: p1 :: t).getLast (List.cons_ne_nil _ _)) x]) := by
  have h1 : ((p0 :: p1 :: t) ++ [x] : List P) = p0 :: p1 :: (t ++ [x]) := by simp
  rw [h1, total_cost_false_eq]
  have h2 : (p0 :: p1 :: (t ++ [x]) : List P) = (p0 :: p1 :: t) ++ [x] := by simp
  rw [h2, legJumps_concat d rng _ x (List.cons_ne_nil _ _),
    legDists_concat d _ x (List.cons_ne_nil _ _), List.sum_append, List.sum_append]
  simp

/-- C6: with loopBack true on at least 2 (distinct) points, the route
returned by `solve` starts and ends with the same reference — the first
input point — and the returned totals are exactly the sums over the
consecutive legs of the returned closed route, hence include the closing
leg from the last distinct point back to the start. -/
theorem c6_solve_loop_closure (d : P → P → ℚ) (rng : ℚ) (fil : Bool)
    (systems : List P) (hnd : systems.Nodup) (h2 : 2 ≤ systems.length) :
    (solve d rng true fil systems).1.head? = systems.head? ∧
    (solve d rng true fil systems).1.getLast? = systems.head? ∧
    (solve d rng true fil systems).2.2.1 =
      (total_cost d rng false (solve d rng true fil systems).1).1 ∧
    (solve d rng true fil systems).2.2.2.1 =
      (total_cost d rng false (solve d rng true fil systems).1).2.2.1 := by
  match systems, hnd, h2 with
  | s0 :: s1 :: rest, hnd, _ =>
    obtain ⟨bs, hbsne, hndB, hBeq, hsolve⟩ := solve_loop_shape d rng fil s0 s1 rest hnd
    obtain ⟨b1, bs2, rfl⟩ : ∃ b1 bs2, bs = b1 :: bs2 := by
      cases bs with
      | nil => exact absurd rfl hbsne
      | cons b1 bs2 => exact ⟨b1, bs2, rfl⟩
    rw [hsolve]
    refine ⟨rfl, ?_, ?_, ?_⟩
    · show ((s0 :: b1 :: bs2) ++ [s0]).getLast? = some s0
      exact List.getLast?_concat _
    · show (total_cost d rng true (s0 :: b1 :: bs2)).1
        = (total_cost d rng false ((s0 :: b1 :: bs2) ++ [s0])).1
      rw [total_cost_true_eq, total_cost_false_concat]
    · show (total_cost d rng true (s0 :: b1 :: bs2)).2.2.1
        = (total_cost d rng false ((s0 :: b1 :: bs2) ++ [s0])).2.2.1
      rw [total_cost_true_eq, total_cost_false_concat]

/-- Witness for `c6_solve_loop_closure` on the spec's three collinear
points in loop mode. -/
theorem c6_solve_loop_closure_witness :
    ([0, 1, 2] : List (Fin 3)).Nodup ∧ 2 ≤ ([0, 1, 2] : List (Fin 3)).length ∧
    ((solve (lineDist xsC7) 15 true false [0, 1, 2]).1.head?
        = ([0, 1, 2] : List (Fin 3)).head? ∧
     (solve (lineDist xsC7) 15 true false [0, 1, 2]).1.getLast?
        = ([0, 1, 2] : List (Fin 3)).head? ∧
     (solve (lineDist xsC7) 15 true false [0, 1, 2]).2.2.1 =
       (total_cost (lineDist xsC7) 15 false
         (solve (lineDist xsC7) 15 true false [0, 1, 2]).1).1 ∧
     (solve (lineDist xsC7) 15 true false [0, 1, 2]).2.2.2.1 =
       (total_cost (lineDist xsC7) 15 false
         (solve (lineDist xsC7) 15 true false [0, 1, 2]).1).2.2.1) :=
  ⟨by decide, by decide,
   c6_solve_loop_closure (lineDist xsC7) 15 false [0, 1, 2] (by decide) (by decide)⟩

/-- C3: with loopBack true, the per-leg hop and distance lists returned by
`solve` carry the closing leg twice — their last two entries coincide — so
each list has `route.length` entries, one more than the `route.length - 1`
distinct legs of the closed route, while the returned totals equal the sums
of the lists without their duplicated final entry. -/
theorem c3_solve_loop_double_closing (d : P → P → ℚ) (rng : ℚ) (fil : Bool)
    (systems : List P) (hnd : systems.Nodup) (h2 : 2 ≤ systems.length) :
    (solve d rng true fil systems).2.1.length = (solve d rng true fil systems).1.length ∧
    (solve d rng true fil systems).2.2.2.2.length = (solve d rng true fil systems).1.length ∧
    (solve d rng true fil systems).2.1.getLast? =
      (solve d rng true fil systems).2.1.dropLast.getLast? ∧
    (solve d rng true fil systems).2.2.2.2.getLast? =
      (solve d rng true fil systems).2.2.2.2.dropLast.getLast? ∧
    (solve d rng true fil systems).2.2.1 =
      (solve d rng true fil systems).2.1.dropLast.sum ∧
    (solve d rng true fil systems).2.2.2.1 =
      (solve d rng true fil systems).2.2.2.2.dropLast.sum := by
  match systems, hnd, h2 with
  | s0 :: s1 :: rest, hnd, _ =>
    obtain ⟨bs, hbsne, hndB, hBeq, hsolve⟩ := solve_loop_shape d rng fil s0 s1 rest hnd
    obtain ⟨b1, bs2, rfl⟩ : ∃ b1 bs2, bs = b1 :: bs2 := by
      cases bs with
      | nil => exact absurd rfl hbsne
      | cons b1 bs2 => exact ⟨b1, bs2, rfl⟩
    rw [hsolve, total_cost_true_eq]
    refine ⟨?_, ?_, ?_, ?_, ?_, ?_⟩
    · show ((legJumps d rng (s0 :: b1 :: bs2) ++ _) ++ _).length
        = ((s0 :: b1 :: bs2) ++ [s0]).length
      simp only [List.length_append, List.length_cons, List.length_nil,
        legJumps_length]
      omega
    · show ((legDists d (s0 :: b1 :: bs2) ++ _) ++ _).length
        = ((s0 :: b1 :: bs2) ++ [s0]).length
      simp only [List.length_append, List.length_cons, List.length_nil,
        legDists_length]
      omega
    · show ((legJumps d rng (s0 :: b1 :: bs2) ++ _) ++ _).getLast? = _
      rw [List.getLast?_concat, List.dropLast_concat, List.getLast?_concat]
    · show ((legDists d (s0 :: b1 :: bs2) ++ _) ++ _).getLast? = _
      rw [List.getLast?_concat, List.dropLast_concat, List.getLast?_concat]
    · show (legJumps d rng (s0 :: b1 :: bs2)).sum + _ = _
      rw [List.dropLast_concat, List.sum_append]
      simp
    · show (legDists d (s0 :: b1 :: bs2)).sum + _ = _
      rw [List.dropLast_concat, List.sum_append]
      simp

/-- Witness for `c3_solve_loop_double_closing` on the spec's three collinear
points in loop mode. -/
theorem c3_solve_loop_double_closing_witness :
    ([0, 1, 2] : List (Fin 3)).Nodup ∧ 2 ≤ ([0, 1, 2] : List (Fin 3)).length ∧
    ((solve (lineDist xsC7) 15 true false [0, 1, 2]).2.1.length =
       (solve (lineDist xsC7) 15 true false [0, 1, 2]).1.length ∧
     (solve (lineDist xsC7) 15 true false [0, 1, 2]).2.2.2.2.length =
       (solve (lineDist xsC7) 15 true false [0, 1, 2]).1.length ∧
     (solve (lineDist xsC7) 15 true false [0, 1, 2]).2.1.getLast? =
       (solve (lineDist xsC7) 15 true false [0, 1, 2]).2.1.dropLast.getLast? ∧
     (solve (lineDist xsC7) 15 true false [0, 1, 2]).2.2.2.2.getLast? =
       (solve (lineDist xsC7) 15 true false [0, 1, 2]).2.2.2.2.dropLast.getLast? ∧
     (solve (lineDist xsC7) 15 true false [0, 1, 2]).2.2.1 =
       (solve (lineDist xsC7) 15 true false [0, 1, 2]).2.1.dropLast.sum ∧
     (solve (lineDist xsC7) 15 true false [0, 1, 2]).2.2.2.1 =
       (solve (lineDist xsC7) 15 true false [0, 1, 2]).2.2.2.2.dropLast.sum) :=
  ⟨by decide, by decide,
   c3_solve_loop_double_closing (lineDist xsC7) 15 false [0, 1, 2] (by decide) (by decide)⟩

end TSP
